import Mathlib

/-!
Verification of the magic-set rewriting implementation (Python sources under
`src/`): a shallow embedding of the data model (`models.py`), the adorner
(`adornment.py`), the magic generator (`generation.py`), the modifier
(`modification.py`), the seeder (`processing.py`) and the assembler
(`main.py`), together with theorems settling the specification claims.

Python strings are embedded as `String`, Python lists as `List`, Python sets
used only for membership as `List` with membership tests, and Python
exceptions as `Except`/`Option` failure values.  The dynamic
"Predicate or AdornedPredicate" union of body atoms is embedded as the tagged
type `Atom`.  The adornment worklist loop is embedded with an explicit fuel
parameter; the fuel chosen in `adorn_datalog_program` is proved sufficient.
-/

namespace MagicRewriting

/-- Embeds Python `str.isupper()` restricted to the ASCII tokens the program
manipulates: true iff the string has at least one cased (alphabetic)
character and every cased character is uppercase. -/
def pyIsUpper (s : String) : Bool :=
  s.data.any (fun c => c.isAlpha) && s.data.all (fun c => !c.isAlpha || c.isUpper)

/-- Predicate from src/models.py: a name and a list of textual arguments. -/
structure Predicate where
  name : String
  args : List String
deriving DecidableEq

/-- AdornedPredicate from src/adornment.py: a predicate together with a
binding pattern string of characters `b`/`f`. -/
structure AdornedPredicate where
  name : String
  args : List String
  binding_pattern : String
deriving DecidableEq

/-- A body (or head) atom is either a plain `Predicate` (EDB occurrence) or an
`AdornedPredicate` (IDB occurrence).  This embeds the Python runtime union in
which `AdornedPredicate` is a subclass of `Predicate`. -/
inductive Atom where
  | plain (p : Predicate)
  | adorned (a : AdornedPredicate)
deriving DecidableEq

/-- The `name` attribute of an atom (defined on both Python classes). -/
def Atom.name : Atom → String
  | .plain p => p.name
  | .adorned a => a.name

/-- The `args` attribute of an atom (defined on both Python classes). -/
def Atom.args : Atom → List String
  | .plain p => p.args
  | .adorned a => a.args

/-- Fact from src/models.py: wraps a predicate; magic seed facts wrap adorned
(magic) predicates, so the wrapped value is an `Atom`. -/
structure Fact where
  predicate : Atom
deriving DecidableEq

/-- Rule from src/models.py: a head and a body of atoms. -/
structure Rule where
  head : Atom
  body : List Atom
deriving DecidableEq

/-- DatalogProgram from src/models.py: facts, rules, an optional query and the
cached set of rule-head names (embedded as a duplicate-free list used only for
membership tests). -/
structure DatalogProgram where
  facts : List Fact
  rules : List Rule
  query : Option Rule
  head_names : List String
deriving DecidableEq

/-- A Python value passed to the `DatalogProgram` mutators, which check the
dynamic type with `isinstance`: a `Fact`, a `Rule`, or anything else. -/
inductive PyVal where
  | fact (f : Fact)
  | rule (r : Rule)
  | other
deriving DecidableEq

/-- `DatalogProgram.add_fact` from src/models.py lines 71-74: raises
`ValueError` (embedded as `Except.error`, leaving the program untouched)
unless the argument is a `Fact` instance, else appends it to `facts`. -/
def add_fact (P : DatalogProgram) (v : PyVal) : Except String DatalogProgram :=
  match v with
  | .fact f => .ok { P with facts := P.facts ++ [f] }
  | _ => .error "Only Fact instances can be added."

/-- `DatalogProgram.add_rule` from src/models.py lines 76-80: raises unless
the argument is a `Rule` instance, else appends it to `rules` and inserts the
head name into `head_names`. -/
def add_rule (P : DatalogProgram) (v : PyVal) : Except String DatalogProgram :=
  match v with
  | .rule r =>
      .ok { P with
        rules := P.rules ++ [r],
        head_names :=
          if r.head.name ∈ P.head_names then P.head_names
          else P.head_names ++ [r.head.name] }
  | _ => .error "Only Rule instances can be added."

/-- `DatalogProgram.set_query` from src/models.py lines 82-85: raises unless
the argument is a `Rule` instance, else stores it as the query. -/
def set_query (P : DatalogProgram) (v : PyVal) : Except String DatalogProgram :=
  match v with
  | .rule r => .ok { P with query := some r }
  | _ => .error "Query must be a Rule instance."

/-- `DatalogProgram.is_predicate_intensional` from src/models.py: a predicate
is intensional iff its name is among the cached rule-head names. -/
def is_predicate_intensional (P : DatalogProgram) (p : Atom) : Bool :=
  decide (p.name ∈ P.head_names)

/-- `adorn_predicate` from src/adornment.py lines 29-40: pair the predicate
with the given binding pattern. -/
def adorn_predicate (p : Atom) (binding_pattern : String) : AdornedPredicate :=
  ⟨p.name, p.args, binding_pattern⟩

/-- `AdornedPredicate.adorned_name` from src/adornment.py lines 24-26. -/
def adorned_name (a : AdornedPredicate) : String :=
  a.name ++ "_" ++ a.binding_pattern

/-- `determine_case_based_binding` from src/adornment.py lines 43-54: one
character per argument, `f` when `arg.isupper()` holds and `b` otherwise. -/
def determine_case_based_binding (args : List String) : String :=
  String.mk (args.map (fun arg => if pyIsUpper arg then 'f' else 'b'))

/-- `adorn_query` from src/adornment.py lines 57-73: adorn each intensional
body atom of the query with its case-based binding pattern. -/
def adorn_query (P : DatalogProgram) (query : Rule) : List AdornedPredicate :=
  query.body.filterMap (fun predicate =>
    if is_predicate_intensional P predicate then
      some (adorn_predicate predicate (determine_case_based_binding predicate.args))
    else none)

/-- `generate_binding_from_set` from src/adornment.py lines 76-88: `b` for
arguments in the bound set, `f` otherwise. -/
def generate_binding_from_set (args : List String) (bound_variables : List String) : String :=
  String.mk (args.map (fun arg => if arg ∈ bound_variables then 'b' else 'f'))

/-- Sorting key of `greedy_binding_order` from src/adornment.py: extensional
atoms before intensional ones, then decreasing arity. -/
def sort_key (P : DatalogProgram) (a : Atom) : Nat × Int :=
  (if is_predicate_intensional P a then 1 else 0, -(a.args.length : Int))

/-- Lexicographic comparison of sorting keys. -/
def keyLe (k l : Nat × Int) : Bool :=
  decide (k.1 < l.1 ∨ (k.1 = l.1 ∧ k.2 ≤ l.2))

/-- Stable insertion into an already sorted list: the new element goes after
every element whose key is less than or equal to its own, as Python's stable
`sorted` does. -/
def insertSorted (P : DatalogProgram) (a : Atom) : List Atom → List Atom
  | [] => [a]
  | b :: rest =>
      if keyLe (sort_key P b) (sort_key P a) then b :: insertSorted P a rest
      else a :: b :: rest

/-- `greedy_binding_order` from src/adornment.py lines 91-124: stable sort of
the body by `sort_key` (Python `sorted`). -/
def greedy_binding_order (P : DatalogProgram) (body : List Atom) : List Atom :=
  body.foldl (fun acc a => insertSorted P a acc) []

/-- Body traversal of `adorn_rule` (src/adornment.py lines 156-166): each
intensional atom is adorned against the current bound set, every atom then
extends the bound set with all of its arguments. -/
def adornBody (P : DatalogProgram) : List String → List Atom → List Atom
  | _, [] => []
  | bound, a :: rest =>
      (if is_predicate_intensional P a then
        Atom.adorned (adorn_predicate a (generate_binding_from_set a.args bound))
      else a) :: adornBody P (bound ++ a.args) rest

/-- `adorn_rule` from src/adornment.py lines 127-168: adorn the head with the
given pattern, initialize the bound set with all head arguments, optionally
reorder the body, and traverse it with `adornBody`. -/
def adorn_rule (P : DatalogProgram) (rule : Rule) (binding_pattern : String)
    (reorder_body : Bool) : Rule :=
  let body := if reorder_body then greedy_binding_order P rule.body else rule.body
  ⟨Atom.adorned (adorn_predicate rule.head binding_pattern),
   adornBody P rule.head.args body⟩

/-- Inner scan of the worklist loop (src/adornment.py lines 197-203): walk a
new rule's body and append each adorned atom whose adorned name is not yet
seen, marking it seen. -/
def collectNew : List Atom → List String → List AdornedPredicate × List String
  | [], seen => ([], seen)
  | a :: rest, seen =>
      match a with
      | .plain _ => collectNew rest seen
      | .adorned ap =>
          if adorned_name ap ∈ seen then collectNew rest seen
          else
            let r := collectNew rest (seen ++ [adorned_name ap])
            (ap :: r.1, r.2)

/-- Per-pop body of the worklist loop (src/adornment.py lines 188-203): for
every program rule whose head name matches the popped adorned predicate,
adorn it, record the adorned rule, and collect newly discovered adorned body
atoms, threading the seen set. -/
def processRules (P : DatalogProgram) (reorder : Bool) (q : AdornedPredicate) :
    List Rule → List String → List Rule × List AdornedPredicate × List String
  | [], seen => ([], [], seen)
  | r :: rs, seen =>
      if r.head.name = q.name then
        let nr := adorn_rule P r q.binding_pattern reorder
        let c := collectNew nr.body seen
        let rest := processRules P reorder q rs c.2
        (nr :: rest.1, c.1 ++ rest.2.1, rest.2.2)
      else processRules P reorder q rs seen

/-- The worklist loop of `adorn_datalog_program` (src/adornment.py lines
186-203), embedded with explicit fuel: pop the front adorned predicate,
process all matching rules, push the newly discovered adorned predicates. -/
def adornLoop (P : DatalogProgram) (reorder : Bool) :
    Nat → List AdornedPredicate → List String → List Rule → Option (List Rule)
  | _, [], _, acc => some acc
  | 0, _ :: _, _, _ => none
  | fuel + 1, q :: rest, seen, acc =>
      let s := processRules P reorder q P.rules seen
      adornLoop P reorder fuel (rest ++ s.2.1) s.2.2 (acc ++ s.1)

/-- Instrumented copy of `adornLoop` that additionally returns the sequence of
popped (processed) adorned predicates; used to state how often each adorned
name is processed. -/
def adornLoopT (P : DatalogProgram) (reorder : Bool) :
    Nat → List AdornedPredicate → List String → List Rule →
    List AdornedPredicate → Option (List Rule × List AdornedPredicate)
  | _, [], _, acc, tr => some (acc, tr)
  | 0, _ :: _, _, _, _ => none
  | fuel + 1, q :: rest, seen, acc, tr =>
      let s := processRules P reorder q P.rules seen
      adornLoopT P reorder fuel (rest ++ s.2.1) s.2.2 (acc ++ s.1) (tr ++ [q])

/-- All binding-pattern character lists of a given length. -/
def allPats : Nat → List (List Char)
  | 0 => [[]]
  | n + 1 => (allPats n).flatMap (fun s => [('b' :: s), ('f' :: s)])

/-- A finite universe of adorned names that can ever enter the worklist of a
given program: for every body atom of every rule, its name under every
binding pattern of its arity, and, for body atoms that are already adorned,
their verbatim adorned name. -/
def adornedNameUniverse (P : DatalogProgram) : Finset String :=
  ((P.rules.flatMap Rule.body).flatMap (fun a =>
      (allPats a.args.length).map (fun pat => a.name ++ "_" ++ String.mk pat) ++
      (match a with
        | .adorned ap => [adorned_name ap]
        | .plain _ => []))).toFinset

/-- `adorn_datalog_program` from src/adornment.py lines 171-210: seed the
worklist with the query's adorned atoms and run the loop.  The loop is run
with fuel equal to the termination measure (queue length plus the number of
not-yet-seen universe names), which is proved sufficient below; `none` is
returned only when the program has no query (the Python code would fail with
an attribute error in that case). -/
def adorn_datalog_program (P : DatalogProgram) (reorder : Bool) :
    Option (List Rule × List AdornedPredicate) :=
  match P.query with
  | none => none
  | some query =>
      let aps := adorn_query P query
      let seen := aps.map adorned_name
      let fuel := aps.length + (adornedNameUniverse P \ seen.toFinset).card
      (adornLoop P reorder fuel aps seen []).map (fun rules => (rules, aps))

/-- `generate_magic_predicate` from src/generation.py lines 7-30: keep the
arguments at `b` positions of the pattern, put `magic_` before the name, and
use the all-`b` pattern of the remaining length. -/
def generate_magic_predicate (adorned_predicate : AdornedPredicate) : AdornedPredicate :=
  let bound_arguments :=
    (adorned_predicate.args.zip adorned_predicate.binding_pattern.data).filterMap
      (fun p => if p.2 = 'b' then some p.1 else none)
  ⟨"magic_" ++ adorned_predicate.name, bound_arguments,
   String.mk (bound_arguments.map (fun _ => 'b'))⟩

/-- Loop of `generate_magic_rules` (src/generation.py lines 47-52) carrying
the already traversed body part: each adorned body atom yields a magic rule
whose body is the magic of the rule head followed by that traversed part.
Accessing `binding_pattern` on a plain rule head raises (embedded as `none`). -/
def magicRulesGo (headM : Option AdornedPredicate) :
    List Atom → List Atom → Option (List Rule)
  | _, [] => some []
  | pre, a :: rest =>
      match a with
      | .plain _ => magicRulesGo headM (pre ++ [a]) rest
      | .adorned ap =>
          match headM with
          | none => none
          | some h =>
              (magicRulesGo headM (pre ++ [a]) rest).map (fun rs =>
                ⟨Atom.adorned (generate_magic_predicate ap),
                 Atom.adorned (generate_magic_predicate h) :: pre⟩ :: rs)

/-- `generate_magic_rules` from src/generation.py lines 33-53. -/
def generate_magic_rules (rule : Rule) : Option (List Rule) :=
  magicRulesGo
    (match rule.head with
      | .adorned h => some h
      | .plain _ => none)
    [] rule.body

/-- `execute_generation` from src/generation.py lines 56-72: concatenate the
magic rules of every adorned rule. -/
def execute_generation : List Rule → Option (List Rule)
  | [] => some []
  | r :: rest => do
      let m ← generate_magic_rules r
      let ms ← execute_generation rest
      return m ++ ms

/-- `modify_rule_with_magic_atom` from src/modification.py lines 8-23: put the
magic atom in front of the body. -/
def modify_rule_with_magic_atom (adorned_rule : Rule)
    (magic_predicate : AdornedPredicate) : Rule :=
  ⟨adorned_rule.head, Atom.adorned magic_predicate :: adorned_rule.body⟩

/-- `modification_step` from src/modification.py lines 26-41: modify every
adorned rule with the magic predicate of its head.  A plain (non-adorned)
head raises (embedded as `none`). -/
def modification_step : List Rule → Option (List Rule)
  | [] => some []
  | r :: rest =>
      match r.head with
      | .adorned h =>
          (modification_step rest).map
            (fun rs => modify_rule_with_magic_atom r (generate_magic_predicate h) :: rs)
      | .plain _ => none

/-- `generate_variable_names` from src/processing.py lines 56-67. -/
def generate_variable_names (pre : String) (number : Nat) : List String :=
  (List.range number).map (fun i => pre ++ toString (i + 1))

/-- `create_magic_seed` from src/processing.py lines 43-53: a fact wrapping
the magic predicate of the adorned predicate. -/
def create_magic_seed (adorned_predicate : AdornedPredicate) : Fact :=
  ⟨Atom.adorned (generate_magic_predicate adorned_predicate)⟩

/-- `generate_magic_facts_and_rules` from src/processing.py lines 8-40: one
magic seed per adorned query atom, and one query rule per adorned query
predicate, with fresh variables `Var_1 .. Var_n`. -/
def generate_magic_facts_and_rules (query_adorned_atoms : List AdornedPredicate)
    (query_adorned_predicates : List AdornedPredicate) : List Fact × List Rule :=
  (query_adorned_atoms.map create_magic_seed,
   query_adorned_predicates.map (fun adorned_predicate =>
     let variable_names := generate_variable_names "Var_" adorned_predicate.args.length
     ⟨Atom.plain ⟨adorned_predicate.name, variable_names⟩,
      [Atom.adorned ⟨adorned_predicate.name, variable_names,
        adorned_predicate.binding_pattern⟩]⟩))

/-- `get_unique_adorned_predicates` from src/main.py lines 79-92: the distinct
(name, binding pattern) pairs over the heads and bodies of the adorned rules. -/
def get_unique_adorned_predicates (adorned_rules : List Rule) : List (String × String) :=
  ((adorned_rules.filterMap (fun r =>
      match r.head with
      | .adorned a => some (a.name, a.binding_pattern)
      | .plain _ => none)) ++
   (adorned_rules.flatMap Rule.body).filterMap (fun p =>
      match p with
      | .adorned a => some (a.name, a.binding_pattern)
      | .plain _ => none)).eraseDups

/-- Modelled from the spec: `adorn_facts` is imported by src/main.py from the
adornment module but is not defined anywhere in the sources.  The spec's
design note says an implementation should define adornment of EDB facts as a
no-op (EDB predicates are not adorned), so it returns no additional facts. -/
def adorn_facts (_facts : List Fact) (_aps : List (String × String)) : List Fact :=
  []

/-- Modelled from the spec: src/main.py unpacks `adorn_datalog_program` into a
triple (adorned rules, query's adorned atoms, query's adorned predicates),
while src/adornment.py returns a pair; the spec's note says the last two
components are the same list of values, simply consumed twice. -/
def adorn_datalog_program3 (P : DatalogProgram) (reorder : Bool) :
    Option (List Rule × List AdornedPredicate × List AdornedPredicate) :=
  (adorn_datalog_program P reorder).map (fun r => (r.1, r.2, r.2))

/-- `apply_magic_set_transformation` from src/main.py lines 40-72: adorn, then
generate magic rules, modified rules, magic seeds and query rules, and
assemble the output program.  Its facts are the input facts followed by the
(empty) adorned facts and then the magic seeds; its rules are the magic rules,
the modified rules and the query rules; the query is carried over. -/
def apply_magic_set_transformation (program : DatalogProgram)
    (apply_reorder_optimization : Bool) : Option DatalogProgram := do
  let t ← adorn_datalog_program3 program apply_reorder_optimization
  let adorned_rules := t.1
  let query_adorned_atoms := t.2.1
  let query_adorned_predicates := t.2.2
  let magic_rules ← execute_generation adorned_rules
  let modified_rules ← modification_step adorned_rules
  let fr := generate_magic_facts_and_rules query_adorned_atoms query_adorned_predicates
  let all_adorned_predicates := get_unique_adorned_predicates adorned_rules
  let adorned_facts2 := adorn_facts program.facts all_adorned_predicates
  return { facts := (program.facts ++ adorned_facts2) ++ fr.1,
           rules := magic_rules ++ modified_rules ++ fr.2,
           query := program.query,
           head_names := [] }

/-- The empty program (`DatalogProgram()` in Python). -/
def emptyProgram : DatalogProgram := ⟨[], [], none, []⟩

/-- `example_program1` from src/adornment.py lines 213-236: the ancestor
program with the fully bound query `ancestor('Bob','Carol')`. -/
def example_program1 : Except String DatalogProgram := do
  let program := emptyProgram
  let program ← add_fact program (.fact ⟨.plain ⟨"parent", ["'Bob'", "'Alice'"]⟩⟩)
  let program ← add_fact program (.fact ⟨.plain ⟨"parent", ["'Alice'", "'Carol'"]⟩⟩)
  let program ← add_rule program
    (.rule ⟨.plain ⟨"ancestor", ["X", "Y"]⟩, [.plain ⟨"parent", ["X", "Y"]⟩]⟩)
  let program ← add_rule program
    (.rule ⟨.plain ⟨"ancestor", ["X", "Y"]⟩,
      [.plain ⟨"ancestor", ["X", "Z"]⟩, .plain ⟨"parent", ["Z", "Y"]⟩]⟩)
  let program ← set_query program
    (.rule ⟨.plain ⟨"q", []⟩, [.plain ⟨"ancestor", ["'Bob'", "'Carol'"]⟩]⟩)
  return program

/-- The program built by `example_program1` (all its additions succeed). -/
def prog1 : DatalogProgram := example_program1.toOption.getD emptyProgram

/-- The query rule of `example_program1`. -/
def progQuery1 : Rule := ⟨.plain ⟨"q", []⟩, [.plain ⟨"ancestor", ["'Bob'", "'Carol'"]⟩]⟩

/-- Default atom used with `List.getD`. -/
def dAtom : Atom := .plain ⟨"", []⟩

/-- Default rule used with `List.getD`. -/
def dRule : Rule := ⟨dAtom, []⟩

/-- Follows the spec's words (§3): an argument term is a variable iff its
first significant character is an uppercase letter; quoted literals, numerals
and lowercase identifiers are constants. -/
def spec_is_variable (s : String) : Bool :=
  match s.data with
  | c :: _ => c.isUpper
  | [] => false

/-- Follows the spec's words (§4.B, rule adornment step 2): the initial bound
set of a rule adorned under head pattern `β` holds exactly the head arguments
at the positions where `β` is `b`. -/
def specInitialBound (head_args : List String) (binding_pattern : String) : List String :=
  (head_args.zip binding_pattern.data).filterMap
    (fun p => if p.2 = 'b' then some p.1 else none)

/-! ### Characterization of the body traversal of `adorn_rule` -/

theorem adornBody_length (P : DatalogProgram) :
    ∀ (body : List Atom) (bound : List String),
    (adornBody P bound body).length = body.length := by
  intro body
  induction body with
  | nil => intro bound; rfl
  | cons a rest ih => intro bound; simp [adornBody, ih]

theorem adornBody_getD (P : DatalogProgram) :
    ∀ (body : List Atom) (bound : List String) (i : Nat), i < body.length →
    (adornBody P bound body).getD i dAtom =
      (if is_predicate_intensional P (body.getD i dAtom) then
        Atom.adorned (adorn_predicate (body.getD i dAtom)
          (generate_binding_from_set (body.getD i dAtom).args
            (bound ++ (body.take i).flatMap Atom.args)))
      else body.getD i dAtom) := by
  intro body
  induction body with
  | nil => intro bound i hi; simp at hi
  | cons a rest ih =>
    intro bound i hi
    cases i with
    | zero => simp [adornBody]
    | succ j =>
      have hj : j < rest.length := by simpa using hi
      simp only [adornBody, List.getD_cons_succ, List.take_succ_cons,
        List.flatMap_cons, ← List.append_assoc]
      exact ih (bound ++ a.args) j hj

/-! ### Characterization of `generate_magic_predicate` and `generate_magic_rules` -/

theorem zip_filterMap_eq_range (l1 : List String) :
    ∀ (l2 : List Char), l2.length = l1.length →
    (l1.zip l2).filterMap (fun p => if p.2 = 'b' then some p.1 else none) =
    (List.range l1.length).filterMap (fun i =>
      if l2.getD i 'f' = 'b' then some (l1.getD i "") else none) := by
  induction l1 with
  | nil => intro l2 _; simp
  | cons x xs ih =>
    intro l2 h
    cases l2 with
    | nil => simp at h
    | cons y ys =>
      have hy : ys.length = xs.length := by simpa using h
      simp only [List.zip_cons_cons, List.filterMap_cons, List.length_cons,
        List.range_succ_eq_map, List.filterMap_map]
      have hfun : ∀ i ∈ List.range xs.length,
          ((fun i => if (y :: ys).getD i 'f' = 'b' then some ((x :: xs).getD i "") else none) ∘
            Nat.succ) i =
          (fun i => if ys.getD i 'f' = 'b' then some (xs.getD i "") else none) i := by
        intro i _
        simp [Function.comp]
      rw [List.filterMap_congr hfun, ← ih ys hy]
      by_cases hc : y = 'b' <;> simp [hc]

theorem zip_filterMap_length (l1 : List String) :
    ∀ (l2 : List Char), l2.length = l1.length →
    ((l1.zip l2).filterMap (fun p => if p.2 = 'b' then some p.1 else none)).length =
    l2.count 'b' := by
  induction l1 with
  | nil => intro l2 h; rw [List.length_eq_zero.mp h]; simp
  | cons x xs ih =>
    intro l2 h
    cases l2 with
    | nil => simp at h
    | cons y ys =>
      have hy : ys.length = xs.length := by simpa using h
      by_cases hc : y = 'b'
      · subst hc
        simp [List.filterMap_cons, ih ys hy]
      · simp [List.filterMap_cons, hc, ih ys hy, List.count_cons]

theorem map_const_b (l : List String) :
    l.map (fun _ => 'b') = List.replicate l.length 'b' := by
  induction l with
  | nil => rfl
  | cons x xs ih => simp [ih, List.replicate]

theorem magicRulesGo_eq (H : AdornedPredicate) :
    ∀ (rest pre : List Atom),
    magicRulesGo (some H) pre rest =
      some ((List.range rest.length).filterMap (fun j =>
        match rest.getD j dAtom with
        | .adorned ap => some ⟨Atom.adorned (generate_magic_predicate ap),
            Atom.adorned (generate_magic_predicate H) :: (pre ++ rest.take j)⟩
        | .plain _ => none)) := by
  intro rest
  induction rest with
  | nil => intro pre; simp [magicRulesGo]
  | cons a rest ih =>
    intro pre
    have hfun : ∀ j ∈ List.range rest.length,
        ((fun j =>
          match (a :: rest).getD j dAtom with
          | .adorned ap => some (Rule.mk (Atom.adorned (generate_magic_predicate ap))
              (Atom.adorned (generate_magic_predicate H) :: (pre ++ (a :: rest).take j)))
          | .plain _ => none) ∘ Nat.succ) j =
        (fun j =>
          match rest.getD j dAtom with
          | .adorned ap => some (Rule.mk (Atom.adorned (generate_magic_predicate ap))
              (Atom.adorned (generate_magic_predicate H) :: ((pre ++ [a]) ++ rest.take j)))
          | .plain _ => none) j := by
      intro j _
      simp only [Function.comp, List.getD_cons_succ, List.take_succ_cons,
        List.append_assoc, List.cons_append, List.nil_append]
    cases a with
    | plain p =>
      simp only [magicRulesGo, ih (pre ++ [Atom.plain p]),
        List.length_cons, List.range_succ_eq_map, List.filterMap_cons,
        List.filterMap_map]
      rw [List.filterMap_congr hfun]
      simp [List.getD_cons_zero]
    | adorned ap =>
      simp only [magicRulesGo, ih (pre ++ [Atom.adorned ap]), Option.map_some,
        List.length_cons, List.range_succ_eq_map, List.filterMap_cons,
        List.filterMap_map]
      rw [List.filterMap_congr hfun]
      simp [List.getD_cons_zero]

/-- Program with rules `p(X) :- q(X,'c').` and `q(A,B) :- e(A,B).`, so that
`q` is intensional and the constant `'c'` occurs only inside the IDB body
atom `q(X,'c')`. -/
def example_c3 : Except String DatalogProgram := do
  let program := emptyProgram
  let program ← add_rule program
    (.rule ⟨.plain ⟨"p", ["X"]⟩, [.plain ⟨"q", ["X", "'c'"]⟩]⟩)
  let program ← add_rule program
    (.rule ⟨.plain ⟨"q", ["A", "B"]⟩, [.plain ⟨"e", ["A", "B"]⟩]⟩)
  return program

/-- The program built by `example_c3`. -/
def progC3 : DatalogProgram := example_c3.toOption.getD emptyProgram

/-- C1: on the rule `ancestor(X,Y) :- ancestor(X,Z), parent(Z,Y).` adorned
under head pattern `fb`, the code initializes the bound set with all head
arguments and therefore adorns the body atom `ancestor(X,Z)` as `bf`,
although the spec's initial bound set for `fb` is `{Y}` (head arguments at
`b` positions only), under which the same atom would receive pattern `ff`:
the bound set in effect is not the one the claim states, and the head
argument `X` at an `f` position of `fb` is treated as bound. -/
theorem c1_bound_set_uses_all_head_args :
    adorn_rule prog1 (prog1.rules.getD 1 dRule) "fb" false =
      ⟨.adorned ⟨"ancestor", ["X", "Y"], "fb"⟩,
       [.adorned ⟨"ancestor", ["X", "Z"], "bf"⟩, .plain ⟨"parent", ["Z", "Y"]⟩]⟩ ∧
    specInitialBound ["X", "Y"] "fb" = ["Y"] ∧
    generate_binding_from_set ["X", "Z"] (specInitialBound ["X", "Y"] "fb") = "ff" ∧
    ("bf" : String) ≠ "ff" := by
  refine ⟨by decide, by decide, by decide, by decide⟩

/-- C2: the token `Var_1` — a variable by the spec's first-letter-uppercase
rule, and precisely the shape of variable the seeder itself generates with
`generate_variable_names` — is classified by `determine_case_based_binding`
as a constant (`b`), because Python's `isupper()` is false on it; the claim
says such an argument is marked `f`. -/
theorem c2_isupper_misclassifies_variables :
    generate_variable_names "Var_" 1 = ["Var_1"] ∧
    spec_is_variable "Var_1" = true ∧
    determine_case_based_binding ["Var_1"] = "b" ∧
    ("b" : String) ≠ "f" := by
  refine ⟨by decide, by decide, by decide, by decide⟩

/-- C3 counterexample: adorning `p(X) :- q(X,'c').` under head pattern `b`
marks the constant `'c'` as `f` (pattern `bf`), although the claim states a
constant argument of an IDB body atom is always marked `b` (which would give
`bb`): the code checks only membership in the bound set. -/
theorem c3_constant_marked_free_cex :
    (adorn_rule progC3 (progC3.rules.getD 0 dRule) "b" false).body =
      [.adorned ⟨"q", ["X", "'c'"], "bf"⟩] ∧
    spec_is_variable "'c'" = false ∧
    ("bf" : String) ≠ "bb" := by
  refine ⟨by decide, by decide, by decide⟩

/-- C3 (amended): during rule adornment the i-th body atom, when intensional,
is adorned with the pattern that marks an argument `b` exactly when it occurs
in the bound set accumulated by the code — all head arguments together with
all arguments of the earlier body atoms — and `f` otherwise (no special
treatment of constants); non-intensional atoms are copied verbatim. -/
theorem c3_binding_from_bound_set (P : DatalogProgram) (rule : Rule)
    (binding_pattern : String) (reorder : Bool) (body0 : List Atom)
    (hb : body0 = if reorder then greedy_binding_order P rule.body else rule.body)
    (i : Nat) (hi : i < body0.length) :
    (adorn_rule P rule binding_pattern reorder).body.getD i dAtom =
      (if is_predicate_intensional P (body0.getD i dAtom) then
        Atom.adorned ⟨(body0.getD i dAtom).name, (body0.getD i dAtom).args,
          generate_binding_from_set (body0.getD i dAtom).args
            (rule.head.args ++ (body0.take i).flatMap Atom.args)⟩
      else body0.getD i dAtom) := by
  have h := adornBody_getD P body0 rule.head.args i hi
  simpa [adorn_rule, ← hb, adorn_predicate] using h

/-- Witness for C3's theorem at the rule `p(X) :- q(X,'c').` of `progC3`. -/
theorem c3_binding_from_bound_set_witness :
    (adorn_rule progC3 (progC3.rules.getD 0 dRule) "b" false).body.getD 0 dAtom =
      (if is_predicate_intensional progC3 ((progC3.rules.getD 0 dRule).body.getD 0 dAtom) then
        Atom.adorned ⟨((progC3.rules.getD 0 dRule).body.getD 0 dAtom).name,
          ((progC3.rules.getD 0 dRule).body.getD 0 dAtom).args,
          generate_binding_from_set ((progC3.rules.getD 0 dRule).body.getD 0 dAtom).args
            ((progC3.rules.getD 0 dRule).head.args ++
              ((progC3.rules.getD 0 dRule).body.take 0).flatMap Atom.args)⟩
      else (progC3.rules.getD 0 dRule).body.getD 0 dAtom) :=
  c3_binding_from_bound_set progC3 (progC3.rules.getD 0 dRule) "b" false
    (progC3.rules.getD 0 dRule).body rfl 0 (by decide)

/-- C4: the magic predicate of `p^β` has name `magic_<p>`, keeps exactly the
arguments at the positions where `β` is `b` in their original order, has
arity equal to the number of `b` in `β` (hence arity 0 for an all-`f`
pattern) and carries the all-`b` pattern of that length; and the magic rules
of an adorned rule with head `H` contain one rule per adorned body occurrence
`Bⱼ`, with head `magic(Bⱼ)` and body `magic(H)` followed by the verbatim
prefix `B₁..Bⱼ₋₁`, in body order. -/
theorem c4_magic_predicate_and_rules (ap : AdornedPredicate)
    (h : ap.binding_pattern.data.length = ap.args.length)
    (H : AdornedPredicate) (body : List Atom) :
    (generate_magic_predicate ap).name = "magic_" ++ ap.name ∧
    (generate_magic_predicate ap).args =
      (List.range ap.args.length).filterMap (fun i =>
        if ap.binding_pattern.data.getD i 'f' = 'b' then some (ap.args.getD i "") else none) ∧
    (generate_magic_predicate ap).args.length = ap.binding_pattern.data.count 'b' ∧
    (generate_magic_predicate ap).binding_pattern =
      String.mk (List.replicate (generate_magic_predicate ap).args.length 'b') ∧
    ((∀ c ∈ ap.binding_pattern.data, c = 'f') → (generate_magic_predicate ap).args = []) ∧
    generate_magic_rules ⟨Atom.adorned H, body⟩ =
      some ((List.range body.length).filterMap (fun j =>
        match body.getD j dAtom with
        | .adorned bj => some ⟨Atom.adorned (generate_magic_predicate bj),
            Atom.adorned (generate_magic_predicate H) :: body.take j⟩
        | .plain _ => none)) := by
  have hcount : (generate_magic_predicate ap).args.length = ap.binding_pattern.data.count 'b' :=
    zip_filterMap_length ap.args ap.binding_pattern.data h
  refine ⟨rfl, ?_, hcount, ?_, ?_, ?_⟩
  · exact zip_filterMap_eq_range ap.args ap.binding_pattern.data h
  · show String.mk ((generate_magic_predicate ap).args.map (fun _ => 'b')) = _
    rw [map_const_b]
  · intro hall
    have : 'b' ∉ ap.binding_pattern.data := by
      intro hmem
      exact absurd (hall 'b' hmem) (by decide)
    have hz : ap.binding_pattern.data.count 'b' = 0 := List.count_eq_zero.mpr this
    exact List.length_eq_zero.mp (hcount.trans hz)
  · show magicRulesGo (some H) [] body = _
    rw [magicRulesGo_eq H body []]
    simp only [List.nil_append]

/-- Witness for C4's theorem at `ancestor^bf(X,Z)` inside the recursive rule
of the ancestor example. -/
theorem c4_magic_predicate_and_rules_witness :
    (generate_magic_predicate ⟨"ancestor", ["X", "Z"], "bf"⟩).args =
      (List.range (["X", "Z"] : List String).length).filterMap (fun i =>
        if ("bf" : String).data.getD i 'f' = 'b' then
          some ((["X", "Z"] : List String).getD i "") else none) :=
  (c4_magic_predicate_and_rules ⟨"ancestor", ["X", "Z"], "bf"⟩ (by decide)
    ⟨"ancestor", ["X", "Y"], "bb"⟩
    [.adorned ⟨"ancestor", ["X", "Z"], "bf"⟩, .plain ⟨"parent", ["Z", "Y"]⟩]).2.1

/-- C5: the modification step maps each adorned rule `H^β :- body.` to the
rule `H^β :- magic(H^β), body.`: same head, the head's magic atom first, the
original body following unchanged and in order; the output has one modified
rule per adorned rule, at the same position. -/
theorem c5_modification_prepends_magic :
    ∀ (rules : List Rule), (∀ r ∈ rules, ∃ a, r.head = Atom.adorned a) →
    ∃ L, modification_step rules = some L ∧ L.length = rules.length ∧
      ∀ i a, i < rules.length → (rules.getD i dRule).head = Atom.adorned a →
        L.getD i dRule = ⟨Atom.adorned a,
          Atom.adorned (generate_magic_predicate a) :: (rules.getD i dRule).body⟩ := by
  intro rules
  induction rules with
  | nil =>
    intro _
    exact ⟨[], rfl, rfl, fun i a hi _ => absurd hi (by simp)⟩
  | cons r rest ih =>
    intro hall
    obtain ⟨a, ha⟩ := hall r (by simp)
    obtain ⟨L, hL, hlen, hidx⟩ := ih (fun s hs => hall s (List.mem_cons_of_mem r hs))
    refine ⟨modify_rule_with_magic_atom r (generate_magic_predicate a) :: L, ?_, by simp [hlen], ?_⟩
    · show modification_step (r :: rest) = _
      unfold modification_step
      rw [ha, hL]
      rfl
    · intro i b hi hb
      cases i with
      | zero =>
        simp only [List.getD_cons_zero] at hb ⊢
        rw [ha] at hb
        cases hb
        simp [modify_rule_with_magic_atom, ha]
      | succ j =>
        simp only [List.getD_cons_succ] at hb ⊢
        exact hidx j b (by simpa using hi) hb

/-- Witness for C5's theorem on a one-rule list. -/
theorem c5_modification_prepends_magic_witness :
    ∃ L, modification_step [⟨.adorned ⟨"p", ["X"], "b"⟩, [.plain ⟨"e", ["X"]⟩]⟩] = some L ∧
      L.length = [(⟨.adorned ⟨"p", ["X"], "b"⟩, [.plain ⟨"e", ["X"]⟩]⟩ : Rule)].length ∧
      ∀ i a, i < [(⟨.adorned ⟨"p", ["X"], "b"⟩, [.plain ⟨"e", ["X"]⟩]⟩ : Rule)].length →
        (([(⟨.adorned ⟨"p", ["X"], "b"⟩, [.plain ⟨"e", ["X"]⟩]⟩ : Rule)]).getD i dRule).head =
          Atom.adorned a →
        L.getD i dRule = ⟨Atom.adorned a,
          Atom.adorned (generate_magic_predicate a) ::
            (([(⟨.adorned ⟨"p", ["X"], "b"⟩, [.plain ⟨"e", ["X"]⟩]⟩ : Rule)]).getD i dRule).body⟩ :=
  c5_modification_prepends_magic [⟨.adorned ⟨"p", ["X"], "b"⟩, [.plain ⟨"e", ["X"]⟩]⟩]
    (fun r hr => by
      rw [List.mem_singleton] at hr
      exact ⟨⟨"p", ["X"], "b"⟩, by rw [hr]⟩)

/-- C6 counterexample: when the query's adorned atoms contain the same atom
twice, its magic seed occurs twice in the seeder's output, not exactly once
as the claim states. -/
theorem c6_duplicate_atoms_duplicate_seeds_cex :
    ((generate_magic_facts_and_rules
        [⟨"ancestor", ["'Bob'", "'Carol'"], "bb"⟩, ⟨"ancestor", ["'Bob'", "'Carol'"], "bb"⟩]
        [⟨"ancestor", ["'Bob'", "'Carol'"], "bb"⟩]).1.count
      (create_magic_seed ⟨"ancestor", ["'Bob'", "'Carol'"], "bb"⟩)) = 2 := by decide

/-- C6 (amended): the seeder emits exactly one magic seed per adorned query
atom occurrence — the seed list is the atom list mapped through
`create_magic_seed`, so `magic_q(c₁..cₖ)` occurs once for each query atom
whose magic seed it is (exactly once when that atom is not duplicated) — and
one query rule `name(Var_1,…,Var_n) :- name_β(Var_1,…,Var_n)` per adorned
query predicate, hence at least one per distinct `(name, β)` pair of the
query. -/
theorem c6_seeds_and_query_rules (atoms preds : List AdornedPredicate)
    (a : AdornedPredicate) (_ha : a ∈ atoms) :
    (generate_magic_facts_and_rules atoms preds).1 = atoms.map create_magic_seed ∧
    create_magic_seed a = ⟨Atom.adorned (generate_magic_predicate a)⟩ ∧
    ((generate_magic_facts_and_rules atoms preds).1.count (create_magic_seed a) =
      (atoms.filter (fun b => create_magic_seed b == create_magic_seed a)).length) ∧
    (generate_magic_facts_and_rules atoms preds).2 = preds.map (fun p =>
      ⟨Atom.plain ⟨p.name, generate_variable_names "Var_" p.args.length⟩,
       [Atom.adorned ⟨p.name, generate_variable_names "Var_" p.args.length,
          p.binding_pattern⟩]⟩) := by
  refine ⟨rfl, rfl, ?_, rfl⟩
  have h1 : (atoms.map create_magic_seed).count (create_magic_seed a) =
      (atoms.map create_magic_seed).countP (· == create_magic_seed a) :=
    List.count_eq_countP ..
  rw [show (generate_magic_facts_and_rules atoms preds).1 = atoms.map create_magic_seed from rfl,
    h1, List.countP_map, List.countP_eq_length_filter]
  rfl

/-- Witness for C6's theorem at the singleton query-atom list of the
ancestor example. -/
theorem c6_seeds_and_query_rules_witness :
    (generate_magic_facts_and_rules [⟨"ancestor", ["'Bob'", "'Carol'"], "bb"⟩]
        [⟨"ancestor", ["'Bob'", "'Carol'"], "bb"⟩]).1 =
      ([⟨"ancestor", ["'Bob'", "'Carol'"], "bb"⟩] : List AdornedPredicate).map
        create_magic_seed :=
  (c6_seeds_and_query_rules [⟨"ancestor", ["'Bob'", "'Carol'"], "bb"⟩]
    [⟨"ancestor", ["'Bob'", "'Carol'"], "bb"⟩]
    ⟨"ancestor", ["'Bob'", "'Carol'"], "bb"⟩ (by decide)).1

/-- C9 counterexample: on `example_program1` (query `ancestor('Bob','Carol')`,
no reordering) the rule list of the transformed program does not contain the
claimed modified rule `ancestor_bb(X,Y) :- magic_ancestor(X,Y),
ancestor_bb(X,Z), parent(Z,Y).`: the recursive body atom is adorned `bf`, not
`bb`, so the claimed output is not produced. -/
theorem c9_scenario1_expected_rule_absent_cex :
    ((apply_magic_set_transformation prog1 false).map (fun pr =>
      pr.rules.contains
        ⟨.adorned ⟨"ancestor", ["X", "Y"], "bb"⟩,
         [.adorned ⟨"magic_ancestor", ["X", "Y"], "bb"⟩,
          .adorned ⟨"ancestor", ["X", "Z"], "bb"⟩,
          .plain ⟨"parent", ["Z", "Y"]⟩]⟩)) = some false := by decide

/-- C9 (amended): the transformation of `example_program1` without reordering
produces the adorned predicates `ancestor_bb` and `ancestor_bf`; magic rules
`magic_ancestor(X) :- magic_ancestor(X,Y).` and
`magic_ancestor(X) :- magic_ancestor(X).`; modified rules
`ancestor_bb(X,Y) :- magic_ancestor(X,Y), parent(X,Y).`,
`ancestor_bb(X,Y) :- magic_ancestor(X,Y), ancestor_bf(X,Z), parent(Z,Y).`,
`ancestor_bf(X,Y) :- magic_ancestor(X), parent(X,Y).`,
`ancestor_bf(X,Y) :- magic_ancestor(X), ancestor_bf(X,Z), parent(Z,Y).`;
the magic seed `magic_ancestor('Bob','Carol').`; and the query rule
`ancestor(Var_1,Var_2) :- ancestor_bb(Var_1,Var_2).`, with the original
facts first and the query unchanged. -/
theorem c9_scenario1_actual_output :
    apply_magic_set_transformation prog1 false = some
      { facts :=
          [⟨.plain ⟨"parent", ["'Bob'", "'Alice'"]⟩⟩,
           ⟨.plain ⟨"parent", ["'Alice'", "'Carol'"]⟩⟩,
           ⟨.adorned ⟨"magic_ancestor", ["'Bob'", "'Carol'"], "bb"⟩⟩],
        rules :=
          [⟨.adorned ⟨"magic_ancestor", ["X"], "b"⟩,
            [.adorned ⟨"magic_ancestor", ["X", "Y"], "bb"⟩]⟩,
           ⟨.adorned ⟨"magic_ancestor", ["X"], "b"⟩,
            [.adorned ⟨"magic_ancestor", ["X"], "b"⟩]⟩,
           ⟨.adorned ⟨"ancestor", ["X", "Y"], "bb"⟩,
            [.adorned ⟨"magic_ancestor", ["X", "Y"], "bb"⟩,
             .plain ⟨"parent", ["X", "Y"]⟩]⟩,
           ⟨.adorned ⟨"ancestor", ["X", "Y"], "bb"⟩,
            [.adorned ⟨"magic_ancestor", ["X", "Y"], "bb"⟩,
             .adorned ⟨"ancestor", ["X", "Z"], "bf"⟩,
             .plain ⟨"parent", ["Z", "Y"]⟩]⟩,
           ⟨.adorned ⟨"ancestor", ["X", "Y"], "bf"⟩,
            [.adorned ⟨"magic_ancestor", ["X"], "b"⟩,
             .plain ⟨"parent", ["X", "Y"]⟩]⟩,
           ⟨.adorned ⟨"ancestor", ["X", "Y"], "bf"⟩,
            [.adorned ⟨"magic_ancestor", ["X"], "b"⟩,
             .adorned ⟨"ancestor", ["X", "Z"], "bf"⟩,
             .plain ⟨"parent", ["Z", "Y"]⟩]⟩,
           ⟨.plain ⟨"ancestor", ["Var_1", "Var_2"]⟩,
            [.adorned ⟨"ancestor", ["Var_1", "Var_2"], "bb"⟩]⟩],
        query := some progQuery1,
        head_names := [] } := by decide

/-! ### The worklist: bookkeeping of the seen set and termination -/

theorem collectNew_spec :
    ∀ (body : List Atom) (seen : List String),
    (collectNew body seen).2 = seen ++ ((collectNew body seen).1.map adorned_name) ∧
    ((collectNew body seen).1.map adorned_name).Nodup ∧
    (∀ n ∈ (collectNew body seen).1.map adorned_name, n ∉ seen) ∧
    (∀ ap ∈ (collectNew body seen).1, Atom.adorned ap ∈ body) := by
  intro body
  induction body with
  | nil =>
    intro seen
    refine ⟨by simp [collectNew], by simp [collectNew], by simp [collectNew],
      by simp [collectNew]⟩
  | cons a rest ih =>
    intro seen
    cases a with
    | plain p =>
      obtain ⟨h1, h2, h3, h4⟩ := ih seen
      have hunf : collectNew (Atom.plain p :: rest) seen = collectNew rest seen := rfl
      rw [hunf]
      exact ⟨h1, h2, h3, fun ap hap => List.mem_cons_of_mem _ (h4 ap hap)⟩
    | adorned ap =>
      by_cases hs : adorned_name ap ∈ seen
      · obtain ⟨h1, h2, h3, h4⟩ := ih seen
        have hunf : collectNew (Atom.adorned ap :: rest) seen = collectNew rest seen := by
          simp [collectNew, hs]
        rw [hunf]
        exact ⟨h1, h2, h3, fun bp hbp => List.mem_cons_of_mem _ (h4 bp hbp)⟩
      · obtain ⟨h1, h2, h3, h4⟩ := ih (seen ++ [adorned_name ap])
        have hunf : collectNew (Atom.adorned ap :: rest) seen =
            (ap :: (collectNew rest (seen ++ [adorned_name ap])).1,
             (collectNew rest (seen ++ [adorned_name ap])).2) := by
          simp [collectNew, hs]
        rw [hunf]
        refine ⟨?_, ?_, ?_, ?_⟩
        · rw [h1]
          simp [List.append_assoc]
        · refine List.Nodup.cons ?_ h2
          intro hmem
          exact h3 (adorned_name ap) hmem (by simp)
        · intro n hn
          rcases List.mem_cons.mp hn with hn | hn
          · rw [hn]; exact hs
          · intro hseen
            exact h3 n hn (List.mem_append_left _ hseen)
        · intro bp hbp
          rcases List.mem_cons.mp hbp with hbp | hbp
          · rw [hbp]; exact List.mem_cons_self _ _
          · exact List.mem_cons_of_mem _ (h4 bp hbp)

theorem processRules_spec (P : DatalogProgram) (reorder : Bool) (q : AdornedPredicate) :
    ∀ (rules : List Rule) (seen : List String),
    (processRules P reorder q rules seen).2.2 =
      seen ++ ((processRules P reorder q rules seen).2.1.map adorned_name) ∧
    ((processRules P reorder q rules seen).2.1.map adorned_name).Nodup ∧
    (∀ n ∈ (processRules P reorder q rules seen).2.1.map adorned_name, n ∉ seen) ∧
    (∀ ap ∈ (processRules P reorder q rules seen).2.1, ∃ r, r ∈ rules ∧
      Atom.adorned ap ∈ (adorn_rule P r q.binding_pattern reorder).body) ∧
    (processRules P reorder q rules seen).1 =
      (rules.filter (fun r => r.head.name == q.name)).map
        (fun r => adorn_rule P r q.binding_pattern reorder) := by
  intro rules
  induction rules with
  | nil =>
    intro seen
    exact ⟨by simp [processRules], by simp [processRules], by simp [processRules],
      by simp [processRules], by simp [processRules]⟩
  | cons r rs ih =>
    intro seen
    by_cases hr : r.head.name = q.name
    · obtain ⟨c1, c2, c3, c4⟩ := collectNew_spec (adorn_rule P r q.binding_pattern reorder).body seen
      obtain ⟨i1, i2, i3, i4, i5⟩ :=
        ih (collectNew (adorn_rule P r q.binding_pattern reorder).body seen).2
      have hunf : processRules P reorder q (r :: rs) seen =
          (adorn_rule P r q.binding_pattern reorder ::
            (processRules P reorder q rs
              (collectNew (adorn_rule P r q.binding_pattern reorder).body seen).2).1,
           (collectNew (adorn_rule P r q.binding_pattern reorder).body seen).1 ++
            (processRules P reorder q rs
              (collectNew (adorn_rule P r q.binding_pattern reorder).body seen).2).2.1,
           (processRules P reorder q rs
              (collectNew (adorn_rule P r q.binding_pattern reorder).body seen).2).2.2) := by
        simp [processRules, hr]
      rw [hunf]
      refine ⟨?_, ?_, ?_, ?_, ?_⟩
      · rw [i1, c1]
        simp [List.append_assoc]
      · rw [List.map_append]
        refine List.Nodup.append c2 i2 ?_
        intro n hn hn2
        have := i3 n hn2
        rw [c1] at this
        exact this (List.mem_append_right _ hn)
      · intro n hn
        rw [List.map_append] at hn
        rcases List.mem_append.mp hn with hn | hn
        · exact c3 n hn
        · intro hseen
          have := i3 n hn
          rw [c1] at this
          exact this (List.mem_append_left _ hseen)
      · intro ap hap
        rcases List.mem_append.mp hap with hap | hap
        · exact ⟨r, List.mem_cons_self _ _, c4 ap hap⟩
        · obtain ⟨r2, hr2, hb2⟩ := i4 ap hap
          exact ⟨r2, List.mem_cons_of_mem _ hr2, hb2⟩
      · have hb : (r.head.name == q.name) = true := beq_iff_eq.mpr hr
        rw [List.filter_cons, hb]
        simp [i5]
    · obtain ⟨i1, i2, i3, i4, i5⟩ := ih seen
      have hunf : processRules P reorder q (r :: rs) seen = processRules P reorder q rs seen := by
        simp [processRules, hr]
      rw [hunf]
      have hb : (r.head.name == q.name) = false := by simpa using hr
      refine ⟨i1, i2, i3, ?_, ?_⟩
      · intro ap hap
        obtain ⟨r2, hr2, hb2⟩ := i4 ap hap
        exact ⟨r2, List.mem_cons_of_mem _ hr2, hb2⟩
      · rw [List.filter_cons, hb, i5]
        simp

theorem mem_allPats : ∀ (l : List Char), (∀ c ∈ l, c = 'b' ∨ c = 'f') →
    l ∈ allPats l.length := by
  intro l
  induction l with
  | nil => intro _; simp [allPats]
  | cons c l ih =>
    intro h
    have hl : l ∈ allPats l.length := ih (fun x hx => h x (List.mem_cons_of_mem c hx))
    have hc := h c (List.mem_cons_self c l)
    show c :: l ∈ allPats (l.length + 1)
    simp only [allPats, List.mem_flatMap]
    refine ⟨l, hl, ?_⟩
    rcases hc with h2 | h2 <;> simp [h2]

theorem generate_binding_chars (args bound : List String) :
    ∀ c ∈ (generate_binding_from_set args bound).data, c = 'b' ∨ c = 'f' := by
  intro c hc
  obtain ⟨arg, _, harg⟩ := List.mem_map.mp hc
  by_cases hmem : arg ∈ bound
  · left; rw [← harg]; simp [hmem]
  · right; rw [← harg]; simp [hmem]

theorem generate_binding_length (args bound : List String) :
    (generate_binding_from_set args bound).data.length = args.length := by
  simp [generate_binding_from_set]

theorem mem_insertSorted (P : DatalogProgram) (a : Atom) :
    ∀ (l : List Atom) (x : Atom), x ∈ insertSorted P a l → x = a ∨ x ∈ l := by
  intro l
  induction l with
  | nil => intro x hx; simpa [insertSorted] using hx
  | cons b rest ih =>
    intro x hx
    by_cases hk : keyLe (sort_key P b) (sort_key P a) = true
    · rw [show insertSorted P a (b :: rest) = b :: insertSorted P a rest by
        simp [insertSorted, hk]] at hx
      rcases List.mem_cons.mp hx with hx | hx
      · right; rw [hx]; exact List.mem_cons_self _ _
      · rcases ih x hx with hx | hx
        · left; exact hx
        · right; exact List.mem_cons_of_mem _ hx
    · rw [show insertSorted P a (b :: rest) = a :: b :: rest by
        simp [insertSorted, hk]] at hx
      rcases List.mem_cons.mp hx with hx | hx
      · left; exact hx
      · right; exact hx

theorem mem_greedy_aux (P : DatalogProgram) :
    ∀ (l acc : List Atom) (x : Atom),
    x ∈ l.foldl (fun acc a => insertSorted P a acc) acc → x ∈ acc ∨ x ∈ l := by
  intro l
  induction l with
  | nil => intro acc x hx; left; simpa using hx
  | cons b rest ih =>
    intro acc x hx
    rcases ih (insertSorted P b acc) x hx with hx | hx
    · rcases mem_insertSorted P b acc x hx with hx | hx
      · right; rw [hx]; exact List.mem_cons_self _ _
      · left; exact hx
    · right; exact List.mem_cons_of_mem _ hx

theorem mem_greedy (P : DatalogProgram) (l : List Atom) (x : Atom)
    (hx : x ∈ greedy_binding_order P l) : x ∈ l := by
  rcases mem_greedy_aux P l [] x hx with h | h
  · simp at h
  · exact h

theorem adornBody_mem (P : DatalogProgram) :
    ∀ (body : List Atom) (bound : List String) (ap : AdornedPredicate),
    Atom.adorned ap ∈ adornBody P bound body →
    ∃ a ∈ body,
      (∃ bound2, ap = adorn_predicate a (generate_binding_from_set a.args bound2)) ∨
      a = Atom.adorned ap := by
  intro body
  induction body with
  | nil => intro bound ap hap; simp [adornBody] at hap
  | cons a rest ih =>
    intro bound ap hap
    rw [show adornBody P bound (a :: rest) =
        (if is_predicate_intensional P a then
          Atom.adorned (adorn_predicate a (generate_binding_from_set a.args bound))
        else a) :: adornBody P (bound ++ a.args) rest from rfl] at hap
    rcases List.mem_cons.mp hap with hap | hap
    · by_cases hint : is_predicate_intensional P a = true
      · rw [if_pos hint] at hap
        refine ⟨a, List.mem_cons_self _ _, Or.inl ⟨bound, ?_⟩⟩
        injection hap.symm with h2
        exact h2.symm
      · rw [if_neg hint] at hap
        exact ⟨a, List.mem_cons_self _ _, Or.inr hap.symm⟩
    · obtain ⟨b, hb, hcase⟩ := ih (bound ++ a.args) ap hap
      exact ⟨b, List.mem_cons_of_mem _ hb, hcase⟩

theorem mem_universe (P : DatalogProgram) (r : Rule) (hr : r ∈ P.rules)
    (bp : String) (reorder : Bool) (ap : AdornedPredicate)
    (hap : Atom.adorned ap ∈ (adorn_rule P r bp reorder).body) :
    adorned_name ap ∈ adornedNameUniverse P := by
  have hap2 : Atom.adorned ap ∈ adornBody P r.head.args
      (if reorder then greedy_binding_order P r.body else r.body) := hap
  obtain ⟨a, ha0, hcase⟩ := adornBody_mem P _ r.head.args ap hap2
  have ha : a ∈ r.body := by
    by_cases hro : reorder = true
    · rw [hro] at ha0
      exact mem_greedy P r.body a (by simpa using ha0)
    · rw [eq_false_of_ne_true hro] at ha0
      simpa using ha0
  have haMem : a ∈ P.rules.flatMap Rule.body := List.mem_flatMap.mpr ⟨r, hr, ha⟩
  rw [adornedNameUniverse, List.mem_toFinset]
  apply List.mem_flatMap.mpr
  refine ⟨a, haMem, ?_⟩
  rcases hcase with ⟨bound2, hb2⟩ | hb2
  · apply List.mem_append_left
    apply List.mem_map.mpr
    refine ⟨(generate_binding_from_set a.args bound2).data, ?_, ?_⟩
    · have hlen : (generate_binding_from_set a.args bound2).data.length = a.args.length :=
        generate_binding_length a.args bound2
      rw [← hlen]
      exact mem_allPats _ (generate_binding_chars a.args bound2)
    · rw [hb2]
      rfl
  · apply List.mem_append_right
    rw [hb2]
    simp

theorem adornLoop_isSome (P : DatalogProgram) (reorder : Bool) :
    ∀ (fuel : Nat) (queue : List AdornedPredicate) (seen : List String) (acc : List Rule),
    queue.length + ((adornedNameUniverse P) \ seen.toFinset).card ≤ fuel →
    (adornLoop P reorder fuel queue seen acc).isSome = true := by
  intro fuel
  induction fuel with
  | zero =>
    intro queue seen acc hm
    have h0 : queue.length = 0 := by omega
    rw [List.length_eq_zero.mp h0]
    rfl
  | succ fuel ih =>
    intro queue seen acc hm
    cases queue with
    | nil => rfl
    | cons q rest =>
      obtain ⟨h1, h2, h3, h4, _⟩ := processRules_spec P reorder q P.rules seen
      have hsub : ∀ n ∈ (processRules P reorder q P.rules seen).2.1.map adorned_name,
          n ∈ adornedNameUniverse P := by
        intro n hn
        obtain ⟨ap, hap, hne⟩ := List.mem_map.mp hn
        obtain ⟨r2, hr2, hb2⟩ := h4 ap hap
        rw [← hne]
        exact mem_universe P r2 hr2 q.binding_pattern reorder ap hb2
      have hstep : adornLoop P reorder (fuel + 1) (q :: rest) seen acc =
          adornLoop P reorder fuel
            (rest ++ (processRules P reorder q P.rules seen).2.1)
            (processRules P reorder q P.rules seen).2.2
            (acc ++ (processRules P reorder q P.rules seen).1) := rfl
      rw [hstep]
      apply ih
      have hTsub : ((processRules P reorder q P.rules seen).2.1.map adorned_name).toFinset ⊆
          adornedNameUniverse P \ seen.toFinset := by
        intro n hn
        rw [List.mem_toFinset] at hn
        rw [Finset.mem_sdiff]
        refine ⟨hsub n hn, ?_⟩
        rw [List.mem_toFinset]
        exact h3 n hn
      have hseen2 : (processRules P reorder q P.rules seen).2.2.toFinset =
          seen.toFinset ∪
            ((processRules P reorder q P.rules seen).2.1.map adorned_name).toFinset := by
        rw [h1, List.toFinset_append]
      have hsd : adornedNameUniverse P \ (processRules P reorder q P.rules seen).2.2.toFinset =
          (adornedNameUniverse P \ seen.toFinset) \
            ((processRules P reorder q P.rules seen).2.1.map adorned_name).toFinset := by
        rw [hseen2]
        ext x
        simp only [Finset.mem_sdiff, Finset.mem_union]
        tauto
      have hcardT : ((processRules P reorder q P.rules seen).2.1.map adorned_name).toFinset.card =
          (processRules P reorder q P.rules seen).2.1.length := by
        rw [List.toFinset_card_of_nodup h2, List.length_map]
      have hcard : (adornedNameUniverse P \ (processRules P reorder q P.rules seen).2.2.toFinset).card =
          (adornedNameUniverse P \ seen.toFinset).card -
            (processRules P reorder q P.rules seen).2.1.length := by
        rw [hsd, Finset.card_sdiff hTsub, hcardT]
      have hle : (processRules P reorder q P.rules seen).2.1.length ≤
          (adornedNameUniverse P \ seen.toFinset).card := by
        rw [← hcardT]
        exact le_trans (Finset.card_le_card hTsub) (le_refl _)
      rw [List.length_append, hcard]
      simp only [List.length_cons] at hm
      omega

theorem adorn_datalog_program_some (P : DatalogProgram) (q0 : Rule)
    (h : P.query = some q0) (reorder : Bool) :
    ∃ rules, adorn_datalog_program P reorder = some (rules, adorn_query P q0) := by
  have hs := adornLoop_isSome P reorder
    ((adorn_query P q0).length +
      ((adornedNameUniverse P) \ ((adorn_query P q0).map adorned_name).toFinset).card)
    (adorn_query P q0) ((adorn_query P q0).map adorned_name) [] (le_refl _)
  obtain ⟨rules, hrules⟩ := Option.isSome_iff_exists.mp hs
  refine ⟨rules, ?_⟩
  unfold adorn_datalog_program
  rw [h]
  simp only [hrules]
  rfl

theorem adornLoopT_fst (P : DatalogProgram) (reorder : Bool) :
    ∀ (fuel : Nat) (queue : List AdornedPredicate) (seen : List String)
      (acc : List Rule) (tr : List AdornedPredicate),
    (adornLoopT P reorder fuel queue seen acc tr).map Prod.fst =
      adornLoop P reorder fuel queue seen acc := by
  intro fuel
  induction fuel with
  | zero =>
    intro queue seen acc tr
    cases queue <;> rfl
  | succ fuel ih =>
    intro queue seen acc tr
    cases queue with
    | nil => rfl
    | cons q rest =>
      exact ih (rest ++ (processRules P reorder q P.rules seen).2.1)
        (processRules P reorder q P.rules seen).2.2
        (acc ++ (processRules P reorder q P.rules seen).1) (tr ++ [q])

theorem adornLoopT_decomp (P : DatalogProgram) (reorder : Bool) :
    ∀ (fuel : Nat) (queue : List AdornedPredicate) (seen : List String)
      (acc : List Rule) (tr : List AdornedPredicate)
      (rules : List Rule) (trace : List AdornedPredicate),
    adornLoopT P reorder fuel queue seen acc tr = some (rules, trace) →
    ∃ tr2, trace = tr ++ tr2 ∧
      rules = acc ++ tr2.flatMap (fun p =>
        (P.rules.filter (fun r => r.head.name == p.name)).map
          (fun r => adorn_rule P r p.binding_pattern reorder)) := by
  intro fuel
  induction fuel with
  | zero =>
    intro queue seen acc tr rules trace h
    cases queue with
    | nil =>
      have h2 : acc = rules ∧ tr = trace := by
        have := h
        simp [adornLoopT] at this
        exact this
      exact ⟨[], by simp [← h2.2], by simp [← h2.1]⟩
    | cons q rest =>
      exact absurd h (by simp [adornLoopT])
  | succ fuel ih =>
    intro queue seen acc tr rules trace h
    cases queue with
    | nil =>
      have h2 : acc = rules ∧ tr = trace := by
        have := h
        simp [adornLoopT] at this
        exact this
      exact ⟨[], by simp [← h2.2], by simp [← h2.1]⟩
    | cons q rest =>
      obtain ⟨tr2, htr, hrules⟩ := ih _ _ _ _ _ _ h
      obtain ⟨_, _, _, _, h5⟩ := processRules_spec P reorder q P.rules seen
      refine ⟨q :: tr2, by simpa [List.append_assoc] using htr, ?_⟩
      rw [hrules, h5]
      simp [List.flatMap_cons, List.append_assoc]

theorem adornLoopT_nodup (P : DatalogProgram) (reorder : Bool) :
    ∀ (fuel : Nat) (queue : List AdornedPredicate) (seen : List String)
      (acc : List Rule) (tr : List AdornedPredicate)
      (rules : List Rule) (trace : List AdornedPredicate),
    (queue.map adorned_name).Nodup →
    (∀ n ∈ queue.map adorned_name, n ∈ seen) →
    adornLoopT P reorder fuel queue seen acc tr = some (rules, trace) →
    ∃ tr2, trace = tr ++ tr2 ∧ (tr2.map adorned_name).Nodup ∧
      (∀ n ∈ tr2.map adorned_name, n ∈ queue.map adorned_name ∨ n ∉ seen) := by
  intro fuel
  induction fuel with
  | zero =>
    intro queue seen acc tr rules trace _ _ h
    cases queue with
    | nil =>
      have h2 : acc = rules ∧ tr = trace := by
        have := h
        simp [adornLoopT] at this
        exact this
      exact ⟨[], by simp [← h2.2], by simp, by simp⟩
    | cons q rest =>
      exact absurd h (by simp [adornLoopT])
  | succ fuel ih =>
    intro queue seen acc tr rules trace hqnd hqseen h
    cases queue with
    | nil =>
      have h2 : acc = rules ∧ tr = trace := by
        have := h
        simp [adornLoopT] at this
        exact this
      exact ⟨[], by simp [← h2.2], by simp, by simp⟩
    | cons q rest =>
      obtain ⟨h1, h2, h3, _, _⟩ := processRules_spec P reorder q P.rules seen
      have hqnd2 : ((rest ++ (processRules P reorder q P.rules seen).2.1).map
          adorned_name).Nodup := by
        rw [List.map_append]
        refine List.Nodup.append ?_ h2 ?_
        · exact (List.nodup_cons.mp (by simpa using hqnd)).2
        · intro n hn hn2
          have hnseen : n ∈ seen := hqseen n (by simp [hn])
          exact h3 n hn2 hnseen
      have hqseen2 : ∀ n ∈ (rest ++ (processRules P reorder q P.rules seen).2.1).map
          adorned_name, n ∈ (processRules P reorder q P.rules seen).2.2 := by
        intro n hn
        rw [List.map_append] at hn
        rw [h1]
        rcases List.mem_append.mp hn with hn | hn
        · exact List.mem_append_left _ (hqseen n (by simp [hn]))
        · exact List.mem_append_right _ hn
      obtain ⟨tr2, htr, hnd2, hsub2⟩ := ih _ _ _ _ _ _ hqnd2 hqseen2 h
      refine ⟨q :: tr2, by simpa [List.append_assoc] using htr, ?_, ?_⟩
      · rw [List.map_cons, List.nodup_cons]
        refine ⟨?_, hnd2⟩
        intro hmem
        rcases hsub2 (adorned_name q) hmem with hc | hc
        · rw [List.map_append] at hc
          rcases List.mem_append.mp hc with hc | hc
          · exact (List.nodup_cons.mp (by simpa using hqnd)).1 hc
          · exact h3 _ hc (hqseen _ (by simp))
        · rw [h1] at hc
          exact absurd (List.mem_append_left _ (hqseen _ (by simp))) hc
      · intro n hn
        rw [List.map_cons] at hn
        rcases List.mem_cons.mp hn with hn | hn
        · left
          rw [hn, List.map_cons]
          exact List.mem_cons_self _ _
        · rcases hsub2 n hn with hc | hc
          · rw [List.map_append] at hc
            rcases List.mem_append.mp hc with hc | hc
            · left
              rw [List.map_cons]
              exact List.mem_cons_of_mem _ hc
            · right
              exact h3 n hc
          · right
            intro hseen
            rw [h1] at hc
            exact hc (List.mem_append_left _ hseen)

theorem adorn_rules_decomp (P : DatalogProgram) (reorder : Bool)
    (rules : List Rule) (aps : List AdornedPredicate)
    (h : adorn_datalog_program P reorder = some (rules, aps)) :
    ∃ trace : List AdornedPredicate, rules = trace.flatMap (fun p =>
      (P.rules.filter (fun r => r.head.name == p.name)).map
        (fun r => adorn_rule P r p.binding_pattern reorder)) := by
  cases hq : P.query with
  | none =>
    rw [show adorn_datalog_program P reorder = none by
      unfold adorn_datalog_program; rw [hq]] at h
    simp at h
  | some q0 =>
    have hdef : adorn_datalog_program P reorder =
        (adornLoop P reorder
          ((adorn_query P q0).length +
            ((adornedNameUniverse P) \ ((adorn_query P q0).map adorned_name).toFinset).card)
          (adorn_query P q0) ((adorn_query P q0).map adorned_name) []).map
          (fun rules => (rules, adorn_query P q0)) := by
      unfold adorn_datalog_program
      rw [hq]
    rw [hdef] at h
    cases hloop : adornLoop P reorder
        ((adorn_query P q0).length +
          ((adornedNameUniverse P) \ ((adorn_query P q0).map adorned_name).toFinset).card)
        (adorn_query P q0) ((adorn_query P q0).map adorned_name) [] with
    | none => rw [hloop] at h; simp at h
    | some rules2 =>
      rw [hloop, Option.map_some'] at h
      have hr2 : rules2 = rules := congrArg Prod.fst (Option.some_inj.mp h)
      have hfst := adornLoopT_fst P reorder
        ((adorn_query P q0).length +
          ((adornedNameUniverse P) \ ((adorn_query P q0).map adorned_name).toFinset).card)
        (adorn_query P q0) ((adorn_query P q0).map adorned_name) [] []
      rw [hloop] at hfst
      cases hT : adornLoopT P reorder
          ((adorn_query P q0).length +
            ((adornedNameUniverse P) \ ((adorn_query P q0).map adorned_name).toFinset).card)
          (adorn_query P q0) ((adorn_query P q0).map adorned_name) [] [] with
      | none => rw [hT] at hfst; simp at hfst
      | some pair =>
        rw [hT, Option.map_some'] at hfst
        have hp1 : pair.1 = rules2 := Option.some_inj.mp hfst
        obtain ⟨tr2, _, hrules2⟩ := adornLoopT_decomp P reorder _ _ _ _ _ pair.1 pair.2 (by rw [hT])
        refine ⟨tr2, ?_⟩
        rw [← hr2, ← hp1, hrules2]
        simp

theorem adorn_rules_heads (P : DatalogProgram) (reorder : Bool)
    (rules : List Rule) (aps : List AdornedPredicate)
    (h : adorn_datalog_program P reorder = some (rules, aps)) :
    ∀ r ∈ rules, ∃ a, r.head = Atom.adorned a := by
  obtain ⟨trace, htr⟩ := adorn_rules_decomp P reorder rules aps h
  intro r hr
  rw [htr] at hr
  obtain ⟨p, _, hmem⟩ := List.mem_flatMap.mp hr
  obtain ⟨r0, _, hr0⟩ := List.mem_map.mp hmem
  exact ⟨adorn_predicate r0.head p.binding_pattern, by rw [← hr0]; rfl⟩

theorem execute_generation_some :
    ∀ (rules : List Rule), (∀ r ∈ rules, ∃ a, r.head = Atom.adorned a) →
    ∃ m, execute_generation rules = some m := by
  intro rules
  induction rules with
  | nil => intro _; exact ⟨[], rfl⟩
  | cons r rest ih =>
    intro hall
    obtain ⟨a, ha⟩ := hall r (List.mem_cons_self _ _)
    obtain ⟨ms, hms⟩ := ih (fun s hs => hall s (List.mem_cons_of_mem _ hs))
    have hone : generate_magic_rules r = magicRulesGo (some a) [] r.body := by
      unfold generate_magic_rules
      rw [ha]
    refine ⟨(match r.body.length, r.body with
      | _, _ => ((List.range r.body.length).filterMap (fun j =>
          match r.body.getD j dAtom with
          | .adorned bj => some ⟨Atom.adorned (generate_magic_predicate bj),
              Atom.adorned (generate_magic_predicate a) :: ([] ++ r.body.take j)⟩
          | .plain _ => none))) ++ ms, ?_⟩
    show execute_generation (r :: rest) = _
    unfold execute_generation
    rw [hone, magicRulesGo_eq a r.body [], hms]
    rfl

theorem modification_step_some :
    ∀ (rules : List Rule), (∀ r ∈ rules, ∃ a, r.head = Atom.adorned a) →
    ∃ m, modification_step rules = some m := by
  intro rules
  induction rules with
  | nil => intro _; exact ⟨[], rfl⟩
  | cons r rest ih =>
    intro hall
    obtain ⟨a, ha⟩ := hall r (List.mem_cons_self _ _)
    obtain ⟨ms, hms⟩ := ih (fun s hs => hall s (List.mem_cons_of_mem _ hs))
    refine ⟨modify_rule_with_magic_atom r (generate_magic_predicate a) :: ms, ?_⟩
    show modification_step (r :: rest) = _
    unfold modification_step
    rw [ha, hms]
    rfl

/-- Program identical to `example_program1` except that the query body lists
two atoms with the same adorned name `ancestor_bb`. -/
def example_dup : Except String DatalogProgram := do
  let program := emptyProgram
  let program ← add_rule program
    (.rule ⟨.plain ⟨"ancestor", ["X", "Y"]⟩, [.plain ⟨"parent", ["X", "Y"]⟩]⟩)
  let program ← add_rule program
    (.rule ⟨.plain ⟨"ancestor", ["X", "Y"]⟩,
      [.plain ⟨"ancestor", ["X", "Z"]⟩, .plain ⟨"parent", ["Z", "Y"]⟩]⟩)
  let program ← set_query program
    (.rule ⟨.plain ⟨"q", []⟩,
      [.plain ⟨"ancestor", ["'Bob'", "'Carol'"]⟩, .plain ⟨"ancestor", ["'Ann'", "'Dan'"]⟩]⟩)
  return program

/-- The program built by `example_dup`. -/
def progDup : DatalogProgram := example_dup.toOption.getD emptyProgram

/-- C7 counterexample: when the query's adorned atoms contain two atoms with
the same adorned name (`ancestor_bb('Bob','Carol')` and
`ancestor_bb('Ann','Dan')`), the worklist seeds the queue with both while the
seen set holds the name once, so `ancestor_bb` is processed twice and the
rule `ancestor(X,Y) :- parent(X,Y).` is adorned under `bb` twice, not exactly
once as the claim states. -/
theorem c7_duplicate_query_seeds_processed_twice_cex :
    (adorn_datalog_program progDup false).map (fun r =>
      r.1.count ⟨.adorned ⟨"ancestor", ["X", "Y"], "bb"⟩,
        [.plain ⟨"parent", ["X", "Y"]⟩]⟩) = some 2 := by decide

/-- C7 (amended): on every program with a query the adornment worklist
terminates (the loop, run with fuel equal to the number of seed atoms plus
the number of not-yet-seen possible adorned names, completes); the adorned
rules are exactly one block per processed worklist entry — every rule whose
head name matches is adorned under the entry's pattern exactly once per
processing — and, provided the adorned names of the query's adorned atoms
are pairwise distinct, every adorned name is processed at most once. -/
theorem c7_worklist_terminates_and_dedups (P : DatalogProgram) (q0 : Rule)
    (reorder : Bool) (h : P.query = some q0)
    (hnd : ((adorn_query P q0).map adorned_name).Nodup) :
    ∃ rules trace,
      adorn_datalog_program P reorder = some (rules, adorn_query P q0) ∧
      adornLoopT P reorder
        ((adorn_query P q0).length +
          ((adornedNameUniverse P) \ ((adorn_query P q0).map adorned_name).toFinset).card)
        (adorn_query P q0) ((adorn_query P q0).map adorned_name) [] [] =
        some (rules, trace) ∧
      (trace.map adorned_name).Nodup ∧
      rules = trace.flatMap (fun p =>
        (P.rules.filter (fun r => r.head.name == p.name)).map
          (fun r => adorn_rule P r p.binding_pattern reorder)) := by
  obtain ⟨rules, hrules⟩ := adorn_datalog_program_some P q0 h reorder
  have hdef : adorn_datalog_program P reorder =
      (adornLoop P reorder
        ((adorn_query P q0).length +
          ((adornedNameUniverse P) \ ((adorn_query P q0).map adorned_name).toFinset).card)
        (adorn_query P q0) ((adorn_query P q0).map adorned_name) []).map
        (fun rules => (rules, adorn_query P q0)) := by
    unfold adorn_datalog_program
    rw [h]
  have hloop : adornLoop P reorder
      ((adorn_query P q0).length +
        ((adornedNameUniverse P) \ ((adorn_query P q0).map adorned_name).toFinset).card)
      (adorn_query P q0) ((adorn_query P q0).map adorned_name) [] = some rules := by
    rw [hdef] at hrules
    cases hl : adornLoop P reorder
        ((adorn_query P q0).length +
          ((adornedNameUniverse P) \ ((adorn_query P q0).map adorned_name).toFinset).card)
        (adorn_query P q0) ((adorn_query P q0).map adorned_name) [] with
    | none => rw [hl] at hrules; simp at hrules
    | some rules2 =>
      rw [hl, Option.map_some'] at hrules
      have h3 : rules2 = rules := congrArg Prod.fst (Option.some_inj.mp hrules)
      rw [h3]
  have hfst := adornLoopT_fst P reorder
    ((adorn_query P q0).length +
      ((adornedNameUniverse P) \ ((adorn_query P q0).map adorned_name).toFinset).card)
    (adorn_query P q0) ((adorn_query P q0).map adorned_name) [] []
  rw [hloop] at hfst
  cases hT : adornLoopT P reorder
      ((adorn_query P q0).length +
        ((adornedNameUniverse P) \ ((adorn_query P q0).map adorned_name).toFinset).card)
      (adorn_query P q0) ((adorn_query P q0).map adorned_name) [] [] with
  | none => rw [hT] at hfst; simp at hfst
  | some pair =>
    rw [hT, Option.map_some'] at hfst
    replace hfst : pair.1 = rules := Option.some_inj.mp hfst
    obtain ⟨tr2, htr, hflat⟩ :=
      adornLoopT_decomp P reorder _ _ _ _ _ pair.1 pair.2 (by rw [hT])
    obtain ⟨tr3, htr3, hnd3, _⟩ :=
      adornLoopT_nodup P reorder _ _ _ _ _ pair.1 pair.2 hnd (fun n hn => hn) (by rw [hT])
    refine ⟨rules, pair.2, hrules, ?_, ?_, ?_⟩
    · rw [← hfst]
    · rw [htr3]
      simpa using hnd3
    · rw [← hfst, hflat]
      simpa using (congrArg
        (fun l => l.flatMap (fun p =>
          (P.rules.filter (fun r => r.head.name == p.name)).map
            (fun r => adorn_rule P r p.binding_pattern reorder))) htr).symm

/-- Witness for C7's theorem on `example_program1`. -/
theorem c7_worklist_terminates_and_dedups_witness :
    ∃ rules trace,
      adorn_datalog_program prog1 false = some (rules, adorn_query prog1 progQuery1) ∧
      adornLoopT prog1 false
        ((adorn_query prog1 progQuery1).length +
          ((adornedNameUniverse prog1) \
            ((adorn_query prog1 progQuery1).map adorned_name).toFinset).card)
        (adorn_query prog1 progQuery1)
        ((adorn_query prog1 progQuery1).map adorned_name) [] [] =
        some (rules, trace) ∧
      (trace.map adorned_name).Nodup ∧
      rules = trace.flatMap (fun p =>
        (prog1.rules.filter (fun r => r.head.name == p.name)).map
          (fun r => adorn_rule prog1 r p.binding_pattern false)) :=
  c7_worklist_terminates_and_dedups prog1 progQuery1 false (by decide) (by decide)

/-- C8: for every program with a query the transformation returns a program
whose facts are the original facts in input order followed by the magic seed
facts, whose rules are the magic rules, then the modified rules, then the
query rules, in that order, and whose query is the original query unchanged.
The parts of src/main.py with no definition in the sources are modelled from
the spec (`adorn_facts` as a no-op, the adorner's triple as the pair with the
adorned atoms consumed twice). -/
theorem c8_assembler_order (P : DatalogProgram) (q0 : Rule) (reorder : Bool)
    (h : P.query = some q0) :
    ∃ rules mr md,
      adorn_datalog_program P reorder = some (rules, adorn_query P q0) ∧
      execute_generation rules = some mr ∧
      modification_step rules = some md ∧
      apply_magic_set_transformation P reorder = some
        { facts := P.facts ++ (adorn_query P q0).map create_magic_seed,
          rules := mr ++ md ++ (adorn_query P q0).map (fun ap =>
            ⟨Atom.plain ⟨ap.name, generate_variable_names "Var_" ap.args.length⟩,
             [Atom.adorned ⟨ap.name, generate_variable_names "Var_" ap.args.length,
                ap.binding_pattern⟩]⟩),
          query := some q0,
          head_names := [] } := by
  obtain ⟨rules, hrules⟩ := adorn_datalog_program_some P q0 h reorder
  have hheads := adorn_rules_heads P reorder rules (adorn_query P q0) hrules
  obtain ⟨mr, hmr⟩ := execute_generation_some rules hheads
  obtain ⟨md, hmd⟩ := modification_step_some rules hheads
  refine ⟨rules, mr, md, hrules, hmr, hmd, ?_⟩
  unfold apply_magic_set_transformation adorn_datalog_program3
  rw [hrules]
  simp only [Option.map_some', Option.bind_eq_bind, Option.some_bind, Option.pure_def]
  rw [hmr, hmd]
  simp only [Option.some_bind, Option.some_inj]
  rw [h]
  simp [adorn_facts, generate_magic_facts_and_rules]

/-- Witness for C8's theorem on `example_program1`. -/
theorem c8_assembler_order_witness :
    ∃ rules mr md,
      adorn_datalog_program prog1 false = some (rules, adorn_query prog1 progQuery1) ∧
      execute_generation rules = some mr ∧
      modification_step rules = some md ∧
      apply_magic_set_transformation prog1 false = some
        { facts := prog1.facts ++ (adorn_query prog1 progQuery1).map create_magic_seed,
          rules := mr ++ md ++ (adorn_query prog1 progQuery1).map (fun ap =>
            ⟨Atom.plain ⟨ap.name, generate_variable_names "Var_" ap.args.length⟩,
             [Atom.adorned ⟨ap.name, generate_variable_names "Var_" ap.args.length,
                ap.binding_pattern⟩]⟩),
          query := some progQuery1,
          head_names := [] } :=
  c8_assembler_order prog1 progQuery1 false (by decide)

/-- C10: the three `DatalogProgram` mutators check the dynamic type of their
argument: a non-`Fact` passed to `add_fact` and a non-`Rule` passed to
`add_rule` or `set_query` raise `ValueError` without touching the program
(the error result carries no modified state), while a correctly typed
argument succeeds, `add_fact` appending to the facts, `add_rule` appending to
the rules and inserting the head name, `set_query` storing the query. -/
theorem c10_mutators_type_checks (P : DatalogProgram) (v : PyVal) :
    ((∀ f, v ≠ PyVal.fact f) →
      add_fact P v = Except.error "Only Fact instances can be added.") ∧
    (∀ f, v = PyVal.fact f →
      add_fact P v = Except.ok { P with facts := P.facts ++ [f] }) ∧
    ((∀ r, v ≠ PyVal.rule r) →
      add_rule P v = Except.error "Only Rule instances can be added.") ∧
    (∀ r, v = PyVal.rule r →
      add_rule P v = Except.ok { P with
        rules := P.rules ++ [r],
        head_names := if r.head.name ∈ P.head_names then P.head_names
          else P.head_names ++ [r.head.name] }) ∧
    ((∀ r, v ≠ PyVal.rule r) →
      set_query P v = Except.error "Query must be a Rule instance.") ∧
    (∀ r, v = PyVal.rule r →
      set_query P v = Except.ok { P with query := some r }) := by
  refine ⟨?_, ?_, ?_, ?_, ?_, ?_⟩
  · intro h
    cases v with
    | fact f => exact absurd rfl (h f)
    | rule _ => rfl
    | other => rfl
  · intro f hf; rw [hf]; rfl
  · intro h
    cases v with
    | rule r => exact absurd rfl (h r)
    | fact _ => rfl
    | other => rfl
  · intro r hr; rw [hr]; rfl
  · intro h
    cases v with
    | rule r => exact absurd rfl (h r)
    | fact _ => rfl
    | other => rfl
  · intro r hr; rw [hr]; rfl

/-- Witness for C10's theorem: a non-`Fact` value is rejected by `add_fact`
on the empty program. -/
theorem c10_mutators_type_checks_witness :
    add_fact emptyProgram PyVal.other = Except.error "Only Fact instances can be added." :=
  (c10_mutators_type_checks emptyProgram PyVal.other).1 (fun _ h => by cases h)

end MagicRewriting
